import Mathlib

/-!
Verification of the guess-evaluation and game-session logic of the
`coreyog/wordle` terminal game (newest revision of `main.go`: keyboard
hints, daily puzzle, two word lists, persisted stats).

Words are modelled as `List Char` (the program only handles uppercase
ASCII, where Go's byte-wise operations coincide with `Char` operations).
Go `map[byte]int` letter-count tables are modelled as functions
`Char → Int`; the mutable globals `discovered`, `keyboard`, `emojiStack`
are threaded explicitly through a `ScoreState`.
-/

def TotalGuesses : Nat := 6

def WordLength : Nat := 5

/-- The `KeyHint` enum (`KeyHintUnknown < KeyHintNotInWord < KeyHintSomewhere
< KeyHintLocated`, iota-ordered bytes in the source).  The per-position
colors red / yellow / green and the emojis `⬛ 🟨 🟩` correspond one-to-one
to `NotInWord` / `Somewhere` / `Located`, so the same type models both the
keyboard hints and the per-position scores. -/
inductive KeyHint where
  | Unknown
  | NotInWord
  | Somewhere
  | Located
deriving DecidableEq, Repr

/-- The byte value of a `KeyHint` in the source (iota order). -/
def hintVal : KeyHint → Nat
  | .Unknown => 0
  | .NotInWord => 1
  | .Somewhere => 2
  | .Located => 3

/-- The keyboard update `setKeyHint`: `existing := keyboard[r]; if hint > existing { keyboard[r] = hint }`. -/
def setKeyHint (keyboard : Char → KeyHint) (r : Char) (hint : KeyHint) : Char → KeyHint :=
  let existing := keyboard r
  if hintVal existing < hintVal hint then
    fun c => if c = r then hint else keyboard c
  else
    keyboard

/-- The helper `mapString` maps a string to a count of each character's occurrences
(the Go loop builds a `map[byte]int` of occurrence counts). -/
def mapString (str : List Char) : Char → Int :=
  fun c => (str.count c : Int)

/-- Pointwise update of a count table (a Go map assignment `m[c] = v`). -/
def updCount {α : Type} (m : Char → α) (c : Char) (v : α) : Char → α :=
  fun x => if x = c then v else m x

/-- Pass 1 of `formatGuess`: `for i := range guess { if guess[i] == word[i]
{ m[word[i]]-- } }`, walking the position-wise pairs `guess.zip word`. -/
def pass1 : List (Char × Char) → (Char → Int) → (Char → Int)
  | [], m => m
  | (g, t) :: rest, m => pass1 rest (if g = t then updCount m t (m t - 1) else m)

/-- The mutable session scoring state: the globals `discovered`,
`keyboard` and `emojiStack` of the source. -/
structure ScoreState where
  discovered : List Bool
  keyboard : Char → KeyHint
  emojiStack : List (List KeyHint)

/-- Pass 2 of `formatGuess` (the second `for i := range guess` loop): under
`clr`, each position is scored green (`Located`, sets `discovered[i]` and
the keyboard hint), yellow (`Somewhere`, consumes a remaining credit) or
red (`NotInWord`); without `clr` the loop only echoes letters and touches
no state.  The `Nat` argument is the loop index `i`. -/
def pass2 (clr : Bool) : Nat → List (Char × Char) → (Char → Int) → ScoreState →
    (List KeyHint × ScoreState)
  | _, [], _, st => ([], st)
  | i, (g, t) :: rest, m, st =>
    if clr then
      if g = t then
        let r := pass2 clr (i + 1) rest m
          { st with discovered := st.discovered.set i true,
                    keyboard := setKeyHint st.keyboard g KeyHint.Located }
        (KeyHint.Located :: r.1, r.2)
      else if m g > 0 then
        let r := pass2 clr (i + 1) rest (updCount m g (m g - 1))
          { st with keyboard := setKeyHint st.keyboard g KeyHint.Somewhere }
        (KeyHint.Somewhere :: r.1, r.2)
      else
        let r := pass2 clr (i + 1) rest m
          { st with keyboard := setKeyHint st.keyboard g KeyHint.NotInWord }
        (KeyHint.NotInWord :: r.1, r.2)
    else
      pass2 clr (i + 1) rest m st

/-- The scoring routine `formatGuess(guess, clr)` of the newest revision: build the count table
of `word`, remove the exact matches (pass 1), then score each position
(pass 2); when `clr` is set the scored line is also pushed onto
`emojiStack`.  The rendered string itself is external output and is not
modelled; the returned hint list carries the same information. -/
def formatGuess (word guess : List Char) (clr : Bool) (st : ScoreState) :
    List KeyHint × ScoreState :=
  let m := pass1 (guess.zip word) (mapString word)
  let r := pass2 clr 0 (guess.zip word) m st
  if clr then (r.1, { r.2 with emojiStack := r.2.emojiStack ++ [r.1] })
  else r

/-- The pure hint sequence produced by scoring `guess` against `word`
(`formatGuess` with `clr` set, projected to its hints; the hints do not
depend on the incoming state). -/
def evaluate (guess word : List Char) : List KeyHint :=
  (formatGuess word guess true
    ⟨List.replicate WordLength false, fun _ => KeyHint.Unknown, []⟩).1

/-- Pass 1 as §4.1 of the spec words it: a remaining-count table of natural
numbers, decremented at each exact match.  Stated only to compare with the
program's `pass1`. -/
def specPass1 : List (Char × Char) → (Char → Nat) → (Char → Nat)
  | [], m => m
  | (g, t) :: rest, m => specPass1 rest (if g = t then updCount m t (m t - 1) else m)

/-- Pass 2 as §4.1 of the spec words it: exact matches are `Located`;
otherwise `Somewhere` while a remaining credit exists, else `NotInWord`.
Stated only to compare with the program's `pass2`. -/
def specPass2 : List (Char × Char) → (Char → Nat) → List KeyHint
  | [], _ => []
  | (g, t) :: rest, m =>
    if g = t then KeyHint.Located :: specPass2 rest m
    else if 0 < m g then KeyHint.Somewhere :: specPass2 rest (updCount m g (m g - 1))
    else KeyHint.NotInWord :: specPass2 rest m

/-- The spec's two-pass evaluation algorithm (§4.1), the comparison point
for the refinement claim about `formatGuess`. -/
def specEvaluate (guess target : List Char) : List KeyHint :=
  specPass2 (guess.zip target) (specPass1 (guess.zip target) (fun c => target.count c))

/-- The check `hardModeEnforcement`: `for i := range word { if discovered[i] &&
guess[i] != word[i] { return false } }; return true`, walking the three
sequences position-wise. -/
def hardModeEnforcement : List Char → List Bool → List Char → Bool
  | w :: ws, d :: ds, g :: gs =>
    if d = true ∧ g ≠ w then false else hardModeEnforcement ws ds gs
  | _, _, _ => true

/-- The positions at which a guess violates the hard-mode rule.  The
program computes no such value: its check returns a bare boolean and the
caller prints a fixed message.  Defined only to state that the check's
result does not determine (hence cannot report) the violating positions. -/
def hardModeViolations (word : List Char) (discovered : List Bool) (guess : List Char) :
    List Nat :=
  (List.range word.length).filter
    (fun i => discovered.getD i false && decide (guess.getD i 'A' ≠ word.getD i 'A'))

/-- Go's byte-wise lexicographic `<` on strings (for the uppercase ASCII
words of the lists, byte order and `Char` order agree). -/
def goStringLess : List Char → List Char → Bool
  | [], [] => false
  | [], _ :: _ => true
  | _ :: _, [] => false
  | a :: as, b :: bs => if a = b then goStringLess as bs else decide (a < b)

/-- The loop of Go's `sort.Search` over the half-open interval `[i, j)`:
probe `m = (i+j)/2`, narrow to `[i, m)` when `f m` holds and to `[m+1, j)`
otherwise.  The loop runs at most `j - i` times, supplied as structural
fuel so that the definition computes. -/
def goSearchAux (f : Nat → Bool) : Nat → Nat → Nat → Nat
  | 0, i, _ => i
  | fuel + 1, i, j =>
    if i < j then
      let m := (i + j) / 2
      if f m = true then goSearchAux f fuel i m else goSearchAux f fuel (m + 1) j
    else i

/-- Go's `sort.Search(n, f)`: the least index in `[0, n]` at which `f`
holds, located by binary search. -/
def goSearch (f : Nat → Bool) (i j : Nat) : Nat :=
  goSearchAux f (j - i) i j

/-- Go's `sort.SearchStrings(a, x)`: `sort.Search` with
`f(i) = a[i] >= x`. -/
def searchStrings (l : List (List Char)) (x : List Char) : Nat :=
  goSearch (fun k => !goStringLess (l.getD k []) x) 0 l.length

/-- The dictionary test `isWord`: binary-search the (sorted) answer list, and if the guess is
not found there, binary-search the (sorted) allowed-guess list. -/
def isWord (wordList allowedWords : List (List Char)) (str : List Char) : Bool :=
  let index := searchStrings wordList str
  let found := decide (index < wordList.length) && decide (wordList.getD index [] = str)
  if found then true
  else
    let index2 := searchStrings allowedWords str
    decide (index2 < allowedWords.length) && decide (allowedWords.getD index2 [] = str)

/-- The session status: the main loop is running (`Active`), broke with
`win = true` (`Won`), or broke with `currentGuess == TotalGuesses`
(`Lost`). -/
inductive Status where
  | Active
  | Won
  | Lost
deriving DecidableEq, Repr

/-- One game session: the target `word`, the mutable scoring state, the
attempt counter `currentGuess` and the terminal status. -/
structure Session where
  word : List Char
  st : ScoreState
  currentGuess : Nat
  status : Status

/-- How the main loop answered one submitted guess: the two rejection
messages, acceptance (the guess was scored), or no reaction at all
(wrong length, or the loop has already exited). -/
inductive SubmitOutcome where
  | notAWord
  | hardModeViolation
  | accepted
  | ignored
deriving DecidableEq, Repr

/-- The enter-key branch of the main loop: a full-length guess is checked
against the dictionary, then (in hard mode) against the revealed hints;
a rejected guess only re-renders the line (`formatGuess` without `clr`);
an accepted guess is scored (`formatGuess` with `clr`), then the loop
breaks with a win when the guess is the word, advances `currentGuess`,
and breaks with a loss when all attempts are used. -/
def submit (hardMode : Bool) (wl aw : List (List Char)) (s : Session) (guess : List Char) :
    Session × SubmitOutcome :=
  if guess.length = WordLength then
    if s.status = Status.Active then
      if isWord wl aw guess = false then
        ({ s with st := (formatGuess s.word guess false s.st).2 }, SubmitOutcome.notAWord)
      else if hardMode = true ∧ hardModeEnforcement s.word s.st.discovered guess = false then
        ({ s with st := (formatGuess s.word guess false s.st).2 },
          SubmitOutcome.hardModeViolation)
      else
        let s1 : Session := { s with st := (formatGuess s.word guess true s.st).2 }
        if guess = s.word then
          ({ s1 with status := Status.Won }, SubmitOutcome.accepted)
        else if s.currentGuess + 1 = TotalGuesses then
          ({ s1 with currentGuess := s.currentGuess + 1, status := Status.Lost },
            SubmitOutcome.accepted)
        else
          ({ s1 with currentGuess := s.currentGuess + 1 }, SubmitOutcome.accepted)
    else (s, SubmitOutcome.ignored)
  else (s, SubmitOutcome.ignored)

/-- A fresh session for a chosen word: `discovered` all false, the
keyboard all `Unknown` (`initKeyboard`; absent map keys also read as the
zero value `Unknown`), no scored guesses, attempt counter `0`. -/
def initSession (word : List Char) : Session :=
  { word := word,
    st := { discovered := List.replicate WordLength false,
            keyboard := fun _ => KeyHint.Unknown,
            emojiStack := [] },
    currentGuess := 0,
    status := Status.Active }

/-- Submitting a sequence of guesses, left to right. -/
def playGuesses (hardMode : Bool) (wl aw : List (List Char)) (s : Session)
    (gs : List (List Char)) : Session :=
  gs.foldl (fun s g => (submit hardMode wl aw s g).1) s

/-- Every guess of the sequence, submitted in order, is accepted. -/
def allAcceptedB (hardMode : Bool) (wl aw : List (List Char)) :
    Session → List (List Char) → Bool
  | _, [] => true
  | s, g :: rest =>
    decide ((submit hardMode wl aw s g).2 = SubmitOutcome.accepted) &&
      allAcceptedB hardMode wl aw (submit hardMode wl aw s g).1 rest

/-- The persisted `GameStats` record of the newest revision.  `LastDaily`
is an optional timestamp, modelled as an opaque-valued `Option Int`. -/
structure GameStats where
  totalGames : Int
  totalHardGames : Int
  wins : List Int
  hardWins : List Int
  streak : Int
  bestStreak : Int
  lastDaily : Option Int
  experimentalEmojiSupport : Bool

/-- The zero-valued default built at the top of `loadGameStats`:
`&GameStats{Wins: make([]int, TotalGuesses), HardWins: make([]int, TotalGuesses)}`. -/
def defaultGameStats : GameStats :=
  { totalGames := 0, totalHardGames := 0,
    wins := List.replicate TotalGuesses 0,
    hardWins := List.replicate TotalGuesses 0,
    streak := 0, bestStreak := 0,
    lastDaily := none, experimentalEmojiSupport := false }

/-- What `loadGameStats` can observe of the outside world: the stats file
is unreadable (no home directory, or `ReadFile` fails), readable but
undecodable, or decodes to a record.  The JSON codec is an external
collaborator, modelled as this three-way outcome. -/
inductive LoadEnv where
  | noFile
  | corrupt
  | parsed (gs : GameStats)

/-- The loader `loadGameStats`: fall back to the zero default when the file is
missing or unreadable; on a decode failure additionally remove the file
(the returned boolean records whether the file was removed); otherwise
return the decoded record.  Every path returns. -/
def loadGameStats : LoadEnv → GameStats × Bool
  | LoadEnv.noFile => (defaultGameStats, false)
  | LoadEnv.corrupt => (defaultGameStats, true)
  | LoadEnv.parsed gs => (gs, false)

/-- The end-of-game stats update (after the main loop): on a win, bump the
active mode's win histogram at the final `currentGuess`, bump the streak
and raise the best streak; on a loss, zero the streak.  `math.Max` over
the two converted counters is modelled as `max` on `Int`. -/
def finishGame (hardMode win : Bool) (currentGuess : Nat) (gs : GameStats) : GameStats :=
  if win then
    let gs1 :=
      if hardMode then
        { gs with hardWins := gs.hardWins.set currentGuess (gs.hardWins.getD currentGuess 0 + 1) }
      else
        { gs with wins := gs.wins.set currentGuess (gs.wins.getD currentGuess 0 + 1) }
    { gs1 with streak := gs1.streak + 1, bestStreak := max gs1.bestStreak (gs1.streak + 1) }
  else
    { gs with streak := 0 }

/-- The interrupt (ctrl-C) handler's stats effect: when the game is not
won and at least one guess has been accepted (`currentGuess != 0`), zero
the streak; otherwise leave the stats alone. -/
def interruptHandler (win : Bool) (currentGuess : Nat) (gs : GameStats) : GameStats :=
  if win = false ∧ currentGuess ≠ 0 then { gs with streak := 0 } else gs

/-- The day counter `dayOffset`: `int(time.Since(anchor).Hours() / 24)` with the anchor
`2021-06-19 00:00 UTC`, as a function of the whole seconds elapsed since
the anchor.  With exact arithmetic, truncating the fractional hours first
and then dividing by 24 yields the same value, so the model divides the
elapsed seconds by 3600 and then by 24. -/
def dayOffset (secondsSinceAnchor : Nat) : Nat :=
  secondsSinceAnchor / 3600 / 24

/-- The daily branch of word selection: `word = wordList[dayOffset % len(wordList)]`
over the answer list in its embedded (pre-sort) order. -/
def selectDaily (secondsSinceAnchor : Nat) (wordList : List (List Char)) : List Char :=
  wordList.getD (dayOffset secondsSinceAnchor % wordList.length) []

/-- A whole session's worth of keyboard updates: `setKeyHint` calls applied
in order. -/
def applyHints (kb : Char → KeyHint) (ops : List (Char × KeyHint)) : Char → KeyHint :=
  ops.foldl (fun k p => setKeyHint k p.1 p.2) kb

/-- Exact matches among the position-wise pairs that carry the letter `L`
in the target slot. -/
def countExact (L : Char) (ps : List (Char × Char)) : Nat :=
  (ps.filter (fun p => decide (p.1 = p.2 ∧ p.2 = L))).length

/-- How many positions pair a guess letter `L` with the hint `a`. -/
def hintCount (L : Char) (a : KeyHint) (ps : List (Char × Char)) (hs : List KeyHint) : Nat :=
  ((ps.zip hs).filter (fun x => decide (x.1.1 = L ∧ x.2 = a))).length

/- ----------------------------------------------------------------------
Theorems.
---------------------------------------------------------------------- -/

theorem pass2_false_state (ps : List (Char × Char)) :
    ∀ (i : Nat) (m : Char → Int) (st : ScoreState), pass2 false i ps m st = ([], st) := by
  induction ps with
  | nil => intro i m st; rfl
  | cons p rest ih =>
      intro i m st
      obtain ⟨g, t⟩ := p
      simpa [pass2] using ih (i + 1) m st

theorem formatGuess_false_state (w g : List Char) (st : ScoreState) :
    (formatGuess w g false st).2 = st := by
  simp [formatGuess, pass2_false_state]

theorem submit_badlen {hm : Bool} {wl aw : List (List Char)} {s : Session}
    {g : List Char} (h : ¬g.length = WordLength) :
    submit hm wl aw s g = (s, SubmitOutcome.ignored) := by
  simp [submit, h]

theorem submit_inactive {hm : Bool} {wl aw : List (List Char)} {s : Session}
    {g : List Char} (hlen : g.length = WordLength) (h : ¬s.status = Status.Active) :
    submit hm wl aw s g = (s, SubmitOutcome.ignored) := by
  simp [submit, hlen, h]

theorem submit_notword {hm : Bool} {wl aw : List (List Char)} {s : Session}
    {g : List Char} (hlen : g.length = WordLength) (hact : s.status = Status.Active)
    (hw : isWord wl aw g = false) :
    submit hm wl aw s g =
      ({ s with st := (formatGuess s.word g false s.st).2 }, SubmitOutcome.notAWord) := by
  simp [submit, hlen, hact, hw]

theorem submit_hardfail {hm : Bool} {wl aw : List (List Char)} {s : Session}
    {g : List Char} (hlen : g.length = WordLength) (hact : s.status = Status.Active)
    (hw : isWord wl aw g = true)
    (hh : hm = true ∧ hardModeEnforcement s.word s.st.discovered g = false) :
    submit hm wl aw s g =
      ({ s with st := (formatGuess s.word g false s.st).2 },
        SubmitOutcome.hardModeViolation) := by
  simp [submit, hlen, hact, hw, hh]

theorem submit_accept_won {hm : Bool} {wl aw : List (List Char)} {s : Session}
    {g : List Char} (hlen : g.length = WordLength) (hact : s.status = Status.Active)
    (hw : isWord wl aw g = true)
    (hh : ¬(hm = true ∧ hardModeEnforcement s.word s.st.discovered g = false))
    (heq : g = s.word) :
    submit hm wl aw s g =
      ({ s with st := (formatGuess s.word g true s.st).2, status := Status.Won },
        SubmitOutcome.accepted) := by
  subst heq
  simp [submit, hlen, hact, hw, hh]

theorem submit_accept_lost {hm : Bool} {wl aw : List (List Char)} {s : Session}
    {g : List Char} (hlen : g.length = WordLength) (hact : s.status = Status.Active)
    (hw : isWord wl aw g = true)
    (hh : ¬(hm = true ∧ hardModeEnforcement s.word s.st.discovered g = false))
    (heq : ¬g = s.word) (hlast : s.currentGuess + 1 = TotalGuesses) :
    submit hm wl aw s g =
      ({ s with st := (formatGuess s.word g true s.st).2,
                currentGuess := s.currentGuess + 1, status := Status.Lost },
        SubmitOutcome.accepted) := by
  simp [submit, hlen, hact, hw, hh, heq, hlast]

theorem submit_accept_next {hm : Bool} {wl aw : List (List Char)} {s : Session}
    {g : List Char} (hlen : g.length = WordLength) (hact : s.status = Status.Active)
    (hw : isWord wl aw g = true)
    (hh : ¬(hm = true ∧ hardModeEnforcement s.word s.st.discovered g = false))
    (heq : ¬g = s.word) (hlast : ¬s.currentGuess + 1 = TotalGuesses) :
    submit hm wl aw s g =
      ({ s with st := (formatGuess s.word g true s.st).2,
                currentGuess := s.currentGuess + 1 }, SubmitOutcome.accepted) := by
  simp [submit, hlen, hact, hw, hh, heq, hlast]

/-- C2: a rejected guess — not in the dictionary, or failing the hard-mode
check — leaves the session completely unchanged: no attempt is consumed
and neither the discovered mask, the keyboard hints nor the result list is
modified; the in-progress rendering path (`formatGuess` without `clr`)
also leaves the scoring state untouched. -/
theorem C2_rejection_preserves_session :
    (∀ (hm : Bool) (wl aw : List (List Char)) (s : Session) (g : List Char),
      (submit hm wl aw s g).2 = SubmitOutcome.notAWord ∨
        (submit hm wl aw s g).2 = SubmitOutcome.hardModeViolation →
      (submit hm wl aw s g).1 = s) ∧
    (∀ (w g : List Char) (st : ScoreState), (formatGuess w g false st).2 = st) := by
  constructor
  · intro hm wl aw s g hrej
    by_cases hlen : g.length = WordLength
    · by_cases hact : s.status = Status.Active
      · by_cases hw : isWord wl aw g = false
        · rw [submit_notword hlen hact hw]
          simp [formatGuess_false_state]
        · have hw2 : isWord wl aw g = true := by
            cases h : isWord wl aw g
            · exact absurd h hw
            · rfl
          by_cases hh : hm = true ∧ hardModeEnforcement s.word s.st.discovered g = false
          · rw [submit_hardfail hlen hact hw2 hh]
            simp [formatGuess_false_state]
          · by_cases heq : g = s.word
            · rw [submit_accept_won hlen hact hw2 hh heq] at hrej
              simp at hrej
            · by_cases hlast : s.currentGuess + 1 = TotalGuesses
              · rw [submit_accept_lost hlen hact hw2 hh heq hlast] at hrej
                simp at hrej
              · rw [submit_accept_next hlen hact hw2 hh heq hlast] at hrej
                simp at hrej
      · rw [submit_inactive hlen hact] at hrej
        simp at hrej
    · rw [submit_badlen hlen] at hrej
      simp at hrej
  · exact formatGuess_false_state

theorem C2_rejection_preserves_session_witness :
    (submit false [] [] (initSession ("CIGAR".toList)) ("REBUT".toList)).1 =
      initSession ("CIGAR".toList) :=
  C2_rejection_preserves_session.1 false [] [] (initSession ("CIGAR".toList))
    ("REBUT".toList) (by decide)

theorem hardModeEnforcement_iff (ws : List Char) :
    ∀ (ds : List Bool) (gs : List Char), ds.length = ws.length → gs.length = ws.length →
      (hardModeEnforcement ws ds gs = true ↔
        ∀ i, i < ws.length → ds.getD i false = true → gs.getD i 'A' = ws.getD i 'A') := by
  induction ws with
  | nil =>
      intro ds gs hd hg
      have hd0 : ds = [] := List.length_eq_zero.mp hd
      have hg0 : gs = [] := List.length_eq_zero.mp hg
      subst hd0; subst hg0
      simp [hardModeEnforcement]
  | cons w ws ih =>
      intro ds gs hd hg
      obtain ⟨d, ds2, rfl⟩ : ∃ d ds2, ds = d :: ds2 := by
        cases ds with
        | nil => simp at hd
        | cons a b => exact ⟨a, b, rfl⟩
      obtain ⟨g, gs2, rfl⟩ : ∃ g gs2, gs = g :: gs2 := by
        cases gs with
        | nil => simp at hg
        | cons a b => exact ⟨a, b, rfl⟩
      have hd2 : ds2.length = ws.length := by simpa using hd
      have hg2 : gs2.length = ws.length := by simpa using hg
      by_cases hc : d = true ∧ g ≠ w
      · have hme : hardModeEnforcement (w :: ws) (d :: ds2) (g :: gs2) = false := by
          simp [hardModeEnforcement, hc]
        rw [hme]
        simp only [Bool.false_eq_true, false_iff]
        intro hall
        exact hc.2 (hall 0 (Nat.succ_pos _) hc.1)
      · have hme : hardModeEnforcement (w :: ws) (d :: ds2) (g :: gs2) =
            hardModeEnforcement ws ds2 gs2 := by
          simp [hardModeEnforcement, hc]
        rw [hme, ih ds2 gs2 hd2 hg2]
        constructor
        · intro htail i hi hdi
          cases i with
          | zero =>
              simp only [List.getD_cons_zero] at hdi ⊢
              rcases Decidable.em (g = w) with hgw | hgw
              · exact hgw
              · exact absurd ⟨hdi, hgw⟩ hc
          | succ n =>
              simp only [List.getD_cons_succ]
              exact htail n (by simpa using hi) (by simpa using hdi)
        · intro hall i hi hdi
          have := hall (i + 1) (by simpa using hi) (by simpa using hdi)
          simpa using this

/-- C4 (amended): the hard-mode check accepts a guess if and only if, at
every position where the discovered mask is true, the guess letter equals
the target letter; letters hinted only `Somewhere` impose no constraint
(the check reads nothing but the mask, the word and the guess).  On
failure it merely returns `false`; no violating position is reported. -/
theorem C4_hard_mode_iff :
    ∀ (word : List Char) (discovered : List Bool) (guess : List Char),
      word.length = WordLength → discovered.length = WordLength →
      guess.length = WordLength →
      (hardModeEnforcement word discovered guess = true ↔
        ∀ i, i < WordLength → discovered.getD i false = true →
          guess.getD i 'A' = word.getD i 'A') := by
  intro word discovered guess hw hd hg
  have := hardModeEnforcement_iff word discovered guess (by rw [hd, hw]) (by rw [hg, hw])
  rwa [hw] at this

theorem C4_hard_mode_iff_witness :
    hardModeEnforcement ("ABCDE".toList) [false, false, false, false, false]
        ("FGHIJ".toList) = true ↔
      ∀ i, i < WordLength →
        List.getD [false, false, false, false, false] i false = true →
        List.getD ("FGHIJ".toList) i 'A' = List.getD ("ABCDE".toList) i 'A' :=
  C4_hard_mode_iff ("ABCDE".toList) [false, false, false, false, false] ("FGHIJ".toList)
    (by decide) (by decide) (by decide)

/-- C4 counterexample to the claim as stated: two configurations whose
violating positions differ (position 0 in the first, position 1 in the
second) produce the *same* check output, a bare `false` — so the check's
result does not determine, and the check cannot report, the violating
position(s). -/
theorem C4_no_position_report_counterexample :
    hardModeEnforcement ("ABCDE".toList) [true, false, false, false, false]
        ("XBCDE".toList) = false ∧
    hardModeEnforcement ("ABCDE".toList) [false, true, false, false, false]
        ("AXCDE".toList) = false ∧
    hardModeViolations ("ABCDE".toList) [true, false, false, false, false]
        ("XBCDE".toList) = [0] ∧
    hardModeViolations ("ABCDE".toList) [false, true, false, false, false]
        ("AXCDE".toList) = [1] ∧
    hardModeEnforcement ("ABCDE".toList) [true, false, false, false, false]
        ("XBCDE".toList) =
      hardModeEnforcement ("ABCDE".toList) [false, true, false, false, false]
        ("AXCDE".toList) := by
  decide

theorem getD_set_self_int :
    ∀ (l : List Int) (n : Nat) (a d : Int), n < l.length → (l.set n a).getD n d = a
  | _ :: _, 0, _, _, _ => rfl
  | _ :: xs, n + 1, a, d, h => getD_set_self_int xs n a d (by simpa using h)

/-- C5: on a `Won` outcome the active mode's win histogram is bumped at the
winning attempt index, the streak grows by exactly one and the best streak
becomes the maximum of itself and the new streak (hence never decreases);
on a `Lost` outcome, and on an interrupt after at least one accepted
guess, the streak is reset to zero. -/
theorem C5_stats_on_outcome :
    ∀ (gs : GameStats) (k : Nat),
      k < TotalGuesses → gs.wins.length = TotalGuesses →
      gs.hardWins.length = TotalGuesses →
      (finishGame false true k gs).wins.getD k 0 = gs.wins.getD k 0 + 1 ∧
      (finishGame true true k gs).hardWins.getD k 0 = gs.hardWins.getD k 0 + 1 ∧
      (∀ hm : Bool, (finishGame hm true k gs).streak = gs.streak + 1) ∧
      (∀ hm : Bool, (finishGame hm true k gs).bestStreak = max gs.bestStreak (gs.streak + 1)) ∧
      (∀ hm : Bool, gs.bestStreak ≤ (finishGame hm true k gs).bestStreak) ∧
      (∀ hm : Bool, (finishGame hm false k gs).streak = 0) ∧
      (k ≠ 0 → (interruptHandler false k gs).streak = 0) := by
  intro gs k hk hwl hhl
  refine ⟨?_, ?_, ?_, ?_, ?_, ?_, ?_⟩
  · simp only [finishGame, if_pos rfl, if_neg Bool.false_ne_true]
    exact getD_set_self_int gs.wins k _ 0 (by rw [hwl]; exact hk)
  · simp only [finishGame, if_pos rfl]
    exact getD_set_self_int gs.hardWins k _ 0 (by rw [hhl]; exact hk)
  · intro hm; cases hm <;> simp [finishGame]
  · intro hm; cases hm <;> simp [finishGame]
  · intro hm; cases hm <;> simp [finishGame]
  · intro hm; cases hm <;> simp [finishGame]
  · intro hk0; simp [interruptHandler, hk0]

theorem C5_stats_on_outcome_witness :
    (finishGame false true 2 defaultGameStats).wins.getD 2 0 =
        defaultGameStats.wins.getD 2 0 + 1 ∧
      (finishGame true true 2 defaultGameStats).hardWins.getD 2 0 =
        defaultGameStats.hardWins.getD 2 0 + 1 ∧
      (∀ hm : Bool, (finishGame hm true 2 defaultGameStats).streak =
        defaultGameStats.streak + 1) ∧
      (∀ hm : Bool, (finishGame hm true 2 defaultGameStats).bestStreak =
        max defaultGameStats.bestStreak (defaultGameStats.streak + 1)) ∧
      (∀ hm : Bool, defaultGameStats.bestStreak ≤
        (finishGame hm true 2 defaultGameStats).bestStreak) ∧
      (∀ hm : Bool, (finishGame hm false 2 defaultGameStats).streak = 0) ∧
      (2 ≠ 0 → (interruptHandler false 2 defaultGameStats).streak = 0) :=
  C5_stats_on_outcome defaultGameStats 2 (by decide) (by rfl) (by rfl)

/-- C7: the daily word is a pure function of the calendar day: the index is
`floor(hours since the 2021-06-19 00:00 UTC anchor / 24) mod len(wordList)`,
and any two selections during the same UTC day (the same number of whole
days since the midnight anchor) return the same word. -/
theorem C7_daily_selection_pure :
    ∀ (t1 t2 : Nat) (wl : List (List Char)),
      t1 / 86400 = t2 / 86400 →
      dayOffset t1 = t1 / 86400 ∧
      selectDaily t1 wl = wl.getD ((t1 / 86400) % wl.length) [] ∧
      selectDaily t1 wl = selectDaily t2 wl := by
  intro t1 t2 wl hday
  have hoff : ∀ t : Nat, dayOffset t = t / 86400 := by
    intro t
    show t / 3600 / 24 = t / 86400
    rw [Nat.div_div_eq_div_mul]
  refine ⟨hoff t1, ?_, ?_⟩
  · simp [selectDaily, hoff t1]
  · simp [selectDaily, hoff t1, hoff t2, hday]

theorem C7_daily_selection_pure_witness :
    dayOffset 90000 = 90000 / 86400 ∧
      selectDaily 90000 [("CIGAR".toList)] =
        List.getD [("CIGAR".toList)] ((90000 / 86400) % List.length [("CIGAR".toList)]) [] ∧
      selectDaily 90000 [("CIGAR".toList)] = selectDaily 100000 [("CIGAR".toList)] :=
  C7_daily_selection_pure 90000 100000 [("CIGAR".toList)] (by decide)

theorem setKeyHint_le (kb : Char → KeyHint) (r c : Char) (h : KeyHint) :
    hintVal (kb c) ≤ hintVal (setKeyHint kb r h c) := by
  unfold setKeyHint
  split
  · by_cases hc : c = r
    · subst hc
      simp only []
      simp
      omega
    · simp [hc]
  · exact le_refl _

theorem applyHints_le (ops : List (Char × KeyHint)) :
    ∀ (kb : Char → KeyHint) (c : Char), hintVal (kb c) ≤ hintVal (applyHints kb ops c) := by
  induction ops with
  | nil => intro kb c; exact le_refl _
  | cons p rest ih =>
      intro kb c
      calc hintVal (kb c) ≤ hintVal (setKeyHint kb p.1 p.2 c) := setKeyHint_le kb p.1 c p.2
        _ ≤ hintVal (applyHints (setKeyHint kb p.1 p.2) rest c) := ih _ c

/-- C8: `setKeyHint` stores the maximum of the existing and the new hint
under the ordering `Unknown < NotInWord < Somewhere < Located` (and leaves
other letters alone), so across any sequence of recorded hints a letter's
reported hint is never lower than its initial value nor than any hint set
for it during the session. -/
theorem C8_keyboard_max_monotone :
    (∀ (kb : Char → KeyHint) (r : Char) (h : KeyHint),
        hintVal (setKeyHint kb r h r) = max (hintVal (kb r)) (hintVal h)) ∧
    (∀ (kb : Char → KeyHint) (r c : Char) (h : KeyHint),
        c ≠ r → setKeyHint kb r h c = kb c) ∧
    (∀ (ops : List (Char × KeyHint)) (kb : Char → KeyHint) (c : Char),
        hintVal (kb c) ≤ hintVal (applyHints kb ops c)) ∧
    (∀ (ops : List (Char × KeyHint)) (kb : Char → KeyHint) (c : Char) (h : KeyHint),
        (c, h) ∈ ops → hintVal h ≤ hintVal (applyHints kb ops c)) := by
  refine ⟨?_, ?_, applyHints_le, ?_⟩
  · intro kb r h
    unfold setKeyHint
    split
    · simp
      omega
    · omega
  · intro kb r c h hne
    unfold setKeyHint
    split
    · simp [hne]
    · rfl
  · intro ops
    induction ops with
    | nil => intro kb c h hmem; simp at hmem
    | cons p rest ih =>
        intro kb c h hmem
        rcases List.mem_cons.mp hmem with hhead | htail
        · have hp : p = (c, h) := hhead.symm
          subst hp
          have h1 : hintVal h ≤ hintVal (setKeyHint kb c h c) := by
            unfold setKeyHint
            split
            · simp
            · omega
          calc hintVal h ≤ hintVal (setKeyHint kb c h c) := h1
            _ ≤ hintVal (applyHints (setKeyHint kb c h) rest c) := applyHints_le rest _ c
        · exact ih (setKeyHint kb p.1 p.2) c h htail

theorem C8_keyboard_max_monotone_witness :
    (setKeyHint (fun _ => KeyHint.Unknown) 'A' KeyHint.Somewhere 'B' =
      (fun _ => KeyHint.Unknown) 'B') ∧
    hintVal KeyHint.Somewhere ≤
      hintVal (applyHints (fun _ => KeyHint.Unknown)
        [('A', KeyHint.Somewhere), ('A', KeyHint.NotInWord)] 'A') :=
  ⟨C8_keyboard_max_monotone.2.1 (fun _ => KeyHint.Unknown) 'A' 'B' KeyHint.Somewhere
      (by decide),
    C8_keyboard_max_monotone.2.2.2 [('A', KeyHint.Somewhere), ('A', KeyHint.NotInWord)]
      (fun _ => KeyHint.Unknown) 'A' KeyHint.Somewhere (by decide)⟩

/-- C9: loading stats yields the zero-valued default — all counters `0`,
win histograms of length `TotalGuesses`, no last-daily date — whenever no
persisted record exists or the record fails to decode; a decode failure
additionally removes the corrupt record; and every possible outcome of the
environment returns a record rather than aborting. -/
theorem C9_load_stats_defaults :
    loadGameStats LoadEnv.noFile = (defaultGameStats, false) ∧
    loadGameStats LoadEnv.corrupt = (defaultGameStats, true) ∧
    (∀ gs : GameStats, loadGameStats (LoadEnv.parsed gs) = (gs, false)) ∧
    defaultGameStats.totalGames = 0 ∧
    defaultGameStats.totalHardGames = 0 ∧
    defaultGameStats.streak = 0 ∧
    defaultGameStats.bestStreak = 0 ∧
    defaultGameStats.wins = List.replicate TotalGuesses 0 ∧
    defaultGameStats.hardWins = List.replicate TotalGuesses 0 ∧
    defaultGameStats.lastDaily = none :=
  ⟨rfl, rfl, fun _ => rfl, rfl, rfl, rfl, rfl, rfl, rfl, rfl⟩

theorem countExact_cons (L g t : Char) (ps : List (Char × Char)) :
    countExact L ((g, t) :: ps) =
      (if g = t ∧ t = L then 1 else 0) + countExact L ps := by
  simp only [countExact, List.filter_cons]
  by_cases h : g = t ∧ t = L
  · simp [h]
    omega
  · simp [h]

theorem hintCount_cons (L : Char) (a : KeyHint) (g t : Char) (h : KeyHint)
    (ps : List (Char × Char)) (hs : List KeyHint) :
    hintCount L a ((g, t) :: ps) (h :: hs) =
      (if g = L ∧ h = a then 1 else 0) + hintCount L a ps hs := by
  simp only [hintCount, List.zip_cons_cons, List.filter_cons]
  by_cases hc : g = L ∧ h = a
  · simp [hc]
    omega
  · simp [hc]

theorem pass1_apply (ps : List (Char × Char)) :
    ∀ (m : Char → Int) (c : Char), pass1 ps m c = m c - (countExact c ps : Int) := by
  induction ps with
  | nil => intro m c; simp [pass1, countExact]
  | cons p rest ih =>
      intro m c
      obtain ⟨g, t⟩ := p
      rw [countExact_cons]
      by_cases hgt : g = t
      · subst hgt
        simp only [pass1, if_pos rfl]
        rw [ih]
        by_cases hc : g = c
        · subst hc
          simp [updCount]
          ring
        · have hng : ¬(g = g ∧ g = c) := fun hh => hc hh.2
          simp [updCount, Ne.symm hc, hng, hc]
      · have hcond : ¬(g = t ∧ t = c) := fun hh => hgt hh.1
        simp only [pass1, if_neg hgt, hcond, if_false]
        rw [ih]
        simp
  
theorem specPass1_apply (ps : List (Char × Char)) :
    ∀ (m : Char → Nat) (c : Char), specPass1 ps m c = m c - countExact c ps := by
  induction ps with
  | nil => intro m c; simp [specPass1, countExact]
  | cons p rest ih =>
      intro m c
      obtain ⟨g, t⟩ := p
      rw [countExact_cons]
      by_cases hgt : g = t
      · subst hgt
        simp only [specPass1, if_pos rfl]
        rw [ih]
        by_cases hc : g = c
        · subst hc
          simp [updCount, Nat.sub_sub]
        · have hng : ¬(g = g ∧ g = c) := fun hh => hc hh.2
          simp [updCount, Ne.symm hc, hng, hc]
      · have hcond : ¬(g = t ∧ t = c) := fun hh => hgt hh.1
        simp only [specPass1, if_neg hgt, hcond, if_false]
        rw [ih]
        simp

theorem countExact_le_count (guess : List Char) :
    ∀ (target : List Char) (L : Char), countExact L (guess.zip target) ≤ target.count L := by
  induction guess with
  | nil => intro target L; simp [countExact]
  | cons g gs ih =>
      intro target L
      cases target with
      | nil => simp [countExact]
      | cons t ts =>
          rw [List.zip_cons_cons, countExact_cons, List.count_cons]
          have hih := ih ts L
          by_cases h1 : g = t ∧ t = L
          · have hbeq : (t == L) = true := by simp [h1.2]
            simp only [if_pos h1, hbeq, if_true]
            omega
          · by_cases h2 : t = L
            · have hbeq : (t == L) = true := by simp [h2]
              simp only [if_neg h1, hbeq, if_true]
              omega
            · have hbeq : (t == L) = false := by simp [h2]
              simp only [if_neg h1, hbeq, Bool.false_eq_true, if_false]
              omega

theorem pass2_true_located (i : Nat) (g t : Char) (rest : List (Char × Char))
    (m : Char → Int) (st : ScoreState) (hgt : g = t) :
    pass2 true i ((g, t) :: rest) m st =
      (KeyHint.Located ::
          (pass2 true (i + 1) rest m
            { st with discovered := st.discovered.set i true,
                      keyboard := setKeyHint st.keyboard g KeyHint.Located }).1,
        (pass2 true (i + 1) rest m
            { st with discovered := st.discovered.set i true,
                      keyboard := setKeyHint st.keyboard g KeyHint.Located }).2) := by
  simp [pass2, hgt]

theorem pass2_true_somewhere (i : Nat) (g t : Char) (rest : List (Char × Char))
    (m : Char → Int) (st : ScoreState) (hgt : ¬g = t) (hpos : m g > 0) :
    pass2 true i ((g, t) :: rest) m st =
      (KeyHint.Somewhere ::
          (pass2 true (i + 1) rest (updCount m g (m g - 1))
            { st with keyboard := setKeyHint st.keyboard g KeyHint.Somewhere }).1,
        (pass2 true (i + 1) rest (updCount m g (m g - 1))
            { st with keyboard := setKeyHint st.keyboard g KeyHint.Somewhere }).2) := by
  simp [pass2, hgt, hpos]

theorem pass2_true_notinword (i : Nat) (g t : Char) (rest : List (Char × Char))
    (m : Char → Int) (st : ScoreState) (hgt : ¬g = t) (hpos : ¬m g > 0) :
    pass2 true i ((g, t) :: rest) m st =
      (KeyHint.NotInWord ::
          (pass2 true (i + 1) rest m
            { st with keyboard := setKeyHint st.keyboard g KeyHint.NotInWord }).1,
        (pass2 true (i + 1) rest m
            { st with keyboard := setKeyHint st.keyboard g KeyHint.NotInWord }).2) := by
  simp [pass2, hgt, hpos]

theorem pass2_fst_located (ps : List (Char × Char)) :
    ∀ (i : Nat) (m : Char → Int) (st : ScoreState) (L : Char),
      hintCount L KeyHint.Located ps (pass2 true i ps m st).1 = countExact L ps := by
  induction ps with
  | nil => intro i m st L; simp [pass2, hintCount, countExact]
  | cons p rest ih =>
      intro i m st L
      obtain ⟨g, t⟩ := p
      rw [countExact_cons]
      by_cases hgt : g = t
      · rw [pass2_true_located i g t rest m st hgt]
        rw [hintCount_cons]
        rw [ih]
        subst hgt
        by_cases hgl : g = L
        · simp [hgl]
        · simp [hgl]
      · have hc : ¬(g = t ∧ t = L) := fun hh => hgt hh.1
        by_cases hpos : m g > 0
        · rw [pass2_true_somewhere i g t rest m st hgt hpos, hintCount_cons, ih]
          simp [hc]
        · rw [pass2_true_notinword i g t rest m st hgt hpos, hintCount_cons, ih]
          simp [hc]

theorem pass2_fst_somewhere_le (ps : List (Char × Char)) :
    ∀ (i : Nat) (m : Char → Int) (st : ScoreState) (L : Char),
      hintCount L KeyHint.Somewhere ps (pass2 true i ps m st).1 ≤ (m L).toNat := by
  induction ps with
  | nil => intro i m st L; simp [pass2, hintCount]
  | cons p rest ih =>
      intro i m st L
      obtain ⟨g, t⟩ := p
      by_cases hgt : g = t
      · rw [pass2_true_located i g t rest m st hgt, hintCount_cons]
        simp only [and_false, if_false, reduceCtorEq, Nat.zero_add]
        exact ih (i + 1) m _ L
      · by_cases hpos : m g > 0
        · rw [pass2_true_somewhere i g t rest m st hgt hpos, hintCount_cons]
          by_cases hgl : g = L
          · subst hgl
            have htail := ih (i + 1) (updCount m g (m g - 1))
              { st with keyboard := setKeyHint st.keyboard g KeyHint.Somewhere } g
            have hupd : updCount m g (m g - 1) g = m g - 1 := by simp [updCount]
            rw [hupd] at htail
            split_ifs <;> omega
          · have htail := ih (i + 1) (updCount m g (m g - 1))
              { st with keyboard := setKeyHint st.keyboard g KeyHint.Somewhere } L
            have hupd : updCount m g (m g - 1) L = m L := by
              simp [updCount, Ne.symm hgl]
            rw [hupd] at htail
            split_ifs with hcnd
            · exact absurd hcnd.1 hgl
            · omega
        · rw [pass2_true_notinword i g t rest m st hgt hpos, hintCount_cons]
          simp only [and_false, if_false, reduceCtorEq, Nat.zero_add]
          exact ih (i + 1) m _ L

theorem pass2_fst_no_unknown (ps : List (Char × Char)) :
    ∀ (i : Nat) (m : Char → Int) (st : ScoreState) (h : KeyHint),
      h ∈ (pass2 true i ps m st).1 → h ≠ KeyHint.Unknown := by
  induction ps with
  | nil => intro i m st h hmem; simp [pass2] at hmem
  | cons p rest ih =>
      intro i m st h hmem
      obtain ⟨g, t⟩ := p
      by_cases hgt : g = t
      · rw [pass2_true_located i g t rest m st hgt] at hmem
        rcases List.mem_cons.mp hmem with hh | hh
        · subst hh; intro hc; cases hc
        · exact ih (i + 1) m _ h hh
      · by_cases hpos : m g > 0
        · rw [pass2_true_somewhere i g t rest m st hgt hpos] at hmem
          rcases List.mem_cons.mp hmem with hh | hh
          · subst hh; intro hc; cases hc
          · exact ih (i + 1) _ _ h hh
        · rw [pass2_true_notinword i g t rest m st hgt hpos] at hmem
          rcases List.mem_cons.mp hmem with hh | hh
          · subst hh; intro hc; cases hc
          · exact ih (i + 1) m _ h hh

theorem pass2_fst_eq_specPass2 (ps : List (Char × Char)) :
    ∀ (i : Nat) (m : Char → Int) (mN : Char → Nat) (st : ScoreState),
      (∀ c, m c = (mN c : Int)) → (pass2 true i ps m st).1 = specPass2 ps mN := by
  induction ps with
  | nil => intro i m mN st hrel; simp [pass2, specPass2]
  | cons p rest ih =>
      intro i m mN st hrel
      obtain ⟨g, t⟩ := p
      by_cases hgt : g = t
      · rw [pass2_true_located i g t rest m st hgt]
        simp only [specPass2, if_pos hgt]
        rw [ih (i + 1) m mN _ hrel]
      · by_cases hpos : m g > 0
        · have hposN : 0 < mN g := by
            have := hrel g
            omega
          rw [pass2_true_somewhere i g t rest m st hgt hpos]
          simp only [specPass2, if_neg hgt, if_pos hposN]
          have hrel2 : ∀ c, updCount m g (m g - 1) c = ((updCount mN g (mN g - 1) c : Nat) : Int) := by
            intro c
            by_cases hc : c = g
            · rw [hc]
              have h1 : updCount m g (m g - 1) g = m g - 1 := by simp [updCount]
              have h2 : updCount mN g (mN g - 1) g = mN g - 1 := by simp [updCount]
              rw [h1, h2]
              have := hrel g
              omega
            · simp only [updCount, if_neg hc]
              exact hrel c
          rw [ih (i + 1) _ _ _ hrel2]
        · have hposN : ¬0 < mN g := by
            have := hrel g
            omega
          rw [pass2_true_notinword i g t rest m st hgt hpos]
          simp only [specPass2, if_neg hgt, if_neg hposN]
          rw [ih (i + 1) m mN _ hrel]

theorem evaluate_eq_pass2 (guess target : List Char) :
    evaluate guess target =
      (pass2 true 0 (guess.zip target) (pass1 (guess.zip target) (mapString target))
        ⟨List.replicate WordLength false, fun _ => KeyHint.Unknown, []⟩).1 := by
  simp [evaluate, formatGuess]

/-- C1: guess evaluation is the spec's duplicate-letter-correct two-pass
algorithm — for every guess and target of length `WordLength`, the
program's scoring (count table, pass 1 removing exact matches as `Located`
credits, pass 2 granting `Somewhere` only while credits remain, else
`NotInWord`) coincides with the spec's §4.1 description; in particular
scoring `ERASE` against `SPEED` yields exactly
`[Somewhere, NotInWord, NotInWord, Somewhere, Somewhere]`. -/
theorem C1_two_pass_refinement :
    (∀ (guess target : List Char),
      guess.length = WordLength → target.length = WordLength →
      evaluate guess target = specEvaluate guess target) ∧
    evaluate ("ERASE".toList) ("SPEED".toList) =
      [KeyHint.Somewhere, KeyHint.NotInWord, KeyHint.NotInWord,
       KeyHint.Somewhere, KeyHint.Somewhere] := by
  constructor
  · intro guess target _ _
    rw [evaluate_eq_pass2, specEvaluate]
    apply pass2_fst_eq_specPass2
    intro c
    rw [pass1_apply, specPass1_apply]
    have hle := countExact_le_count guess target c
    have hms : mapString target c = (target.count c : Int) := rfl
    rw [hms, Nat.cast_sub hle]
  · decide

theorem C1_two_pass_refinement_witness :
    evaluate ("ERASE".toList) ("SPEED".toList) = specEvaluate ("ERASE".toList) ("SPEED".toList) :=
  C1_two_pass_refinement.1 ("ERASE".toList) ("SPEED".toList) (by decide) (by decide)

/-- C10: for every scored guess and every letter `L`, the positions of `L`
marked `Located` plus those marked `Somewhere` never exceed the number of
occurrences of `L` in the target; every scored position carries one of the
three hints `Located` / `Somewhere` / `NotInWord` (never `Unknown`), so
each further occurrence of `L` beyond the credits is marked `NotInWord`. -/
theorem C10_duplicate_letter_credit_bound :
    ∀ (guess target : List Char) (L : Char),
      hintCount L KeyHint.Located (guess.zip target) (evaluate guess target) +
          hintCount L KeyHint.Somewhere (guess.zip target) (evaluate guess target) ≤
        target.count L ∧
      ∀ h ∈ evaluate guess target, h ≠ KeyHint.Unknown := by
  intro guess target L
  constructor
  · rw [evaluate_eq_pass2]
    have h1 := pass2_fst_located (guess.zip target) 0
      (pass1 (guess.zip target) (mapString target))
      ⟨List.replicate WordLength false, fun _ => KeyHint.Unknown, []⟩ L
    have h2 := pass2_fst_somewhere_le (guess.zip target) 0
      (pass1 (guess.zip target) (mapString target))
      ⟨List.replicate WordLength false, fun _ => KeyHint.Unknown, []⟩ L
    have h3 : pass1 (guess.zip target) (mapString target) L =
        (target.count L : Int) - (countExact L (guess.zip target) : Int) := by
      rw [pass1_apply]
      rfl
    have h4 := countExact_le_count guess target L
    rw [h1]
    rw [h3] at h2
    omega
  · rw [evaluate_eq_pass2]
    exact pass2_fst_no_unknown (guess.zip target) 0
      (pass1 (guess.zip target) (mapString target))
      ⟨List.replicate WordLength false, fun _ => KeyHint.Unknown, []⟩

theorem hardModeEnforcement_refl :
    ∀ (ws : List Char) (ds : List Bool), hardModeEnforcement ws ds ws = true := by
  intro ws
  induction ws with
  | nil => intro ds; cases ds <;> rfl
  | cons w ws ih =>
      intro ds
      cases ds with
      | nil => rfl
      | cons d ds2 =>
          have hc : ¬(d = true ∧ w ≠ w) := fun hh => hh.2 rfl
          simp only [hardModeEnforcement, if_neg hc]
          exact ih ds2

theorem submit_accepted_inv {hm : Bool} {wl aw : List (List Char)} {s : Session}
    {g : List Char} (hacc : (submit hm wl aw s g).2 = SubmitOutcome.accepted)
    (hne : ¬g = s.word) :
    (submit hm wl aw s g).1.word = s.word ∧
    (submit hm wl aw s g).1.currentGuess = s.currentGuess + 1 ∧
    (submit hm wl aw s g).1.status =
      (if s.currentGuess + 1 = TotalGuesses then Status.Lost else Status.Active) := by
  by_cases hlen : g.length = WordLength
  · by_cases hact : s.status = Status.Active
    · by_cases hw : isWord wl aw g = false
      · rw [submit_notword hlen hact hw] at hacc
        simp at hacc
      · have hw2 : isWord wl aw g = true := by
          cases h : isWord wl aw g
          · exact absurd h hw
          · rfl
        by_cases hh : hm = true ∧ hardModeEnforcement s.word s.st.discovered g = false
        · rw [submit_hardfail hlen hact hw2 hh] at hacc
          simp at hacc
        · by_cases hlast : s.currentGuess + 1 = TotalGuesses
          · rw [submit_accept_lost hlen hact hw2 hh hne hlast]
            simp [hlast]
          · rw [submit_accept_next hlen hact hw2 hh hne hlast]
            simp [hlast, hact]
    · rw [submit_inactive hlen hact] at hacc
      simp at hacc
  · rw [submit_badlen hlen] at hacc
    simp at hacc

theorem playGuesses_nil (hm : Bool) (wl aw : List (List Char)) (s : Session) :
    playGuesses hm wl aw s [] = s := rfl

theorem playGuesses_cons (hm : Bool) (wl aw : List (List Char)) (s : Session)
    (g : List Char) (gs : List (List Char)) :
    playGuesses hm wl aw s (g :: gs) = playGuesses hm wl aw (submit hm wl aw s g).1 gs := rfl

theorem playGuesses_lost (hm : Bool) (wl aw : List (List Char)) :
    ∀ (gs : List (List Char)) (s : Session),
      s.status = Status.Active → s.currentGuess < TotalGuesses →
      s.currentGuess + gs.length = TotalGuesses →
      allAcceptedB hm wl aw s gs = true →
      (∀ g ∈ gs, g ≠ s.word) →
      (playGuesses hm wl aw s gs).status = Status.Lost := by
  intro gs
  induction gs with
  | nil =>
      intro s _ hlt hsum _ _
      exfalso
      simp at hsum
      omega
  | cons g rest ih =>
      intro s hact hlt hsum hacc hne
      rw [show allAcceptedB hm wl aw s (g :: rest) =
          (decide ((submit hm wl aw s g).2 = SubmitOutcome.accepted) &&
            allAcceptedB hm wl aw (submit hm wl aw s g).1 rest) from rfl] at hacc
      rw [Bool.and_eq_true, decide_eq_true_eq] at hacc
      obtain ⟨hacc1, hacc2⟩ := hacc
      have hne1 : ¬g = s.word := hne g (List.mem_cons_self g rest)
      have hinv := submit_accepted_inv hacc1 hne1
      have hsum2 : s.currentGuess + (rest.length + 1) = TotalGuesses := by
        simpa using hsum
      rw [playGuesses_cons]
      by_cases hlast : s.currentGuess + 1 = TotalGuesses
      · have hrest : rest = [] := by
          have hzero : rest.length = 0 := by omega
          exact List.length_eq_zero.mp hzero
        subst hrest
        rw [playGuesses_nil, hinv.2.2, if_pos hlast]
      · apply ih
        · rw [hinv.2.2, if_neg hlast]
        · rw [hinv.2.1]
          omega
        · rw [hinv.2.1]
          omega
        · exact hacc2
        · intro g2 hg2
          rw [hinv.1]
          exact hne g2 (List.mem_cons_of_mem g hg2)

/-- C3: a session that submits `TotalGuesses` (6) consecutive accepted
guesses, none equal to the target, ends `Lost`; an accepted guess equal to
the target at any attempt index below `TotalGuesses` ends the session
`Won` at that same attempt index; and once the session is no longer
`Active` (it is `Won` or `Lost`) a submitted guess is not accepted and
changes nothing. -/
theorem C3_session_state_machine :
    (∀ (hm : Bool) (wl aw : List (List Char)) (s : Session) (gs : List (List Char)),
      s.status = Status.Active → s.currentGuess = 0 → gs.length = TotalGuesses →
      allAcceptedB hm wl aw s gs = true → (∀ g ∈ gs, g ≠ s.word) →
      (playGuesses hm wl aw s gs).status = Status.Lost) ∧
    (∀ (hm : Bool) (wl aw : List (List Char)) (s : Session),
      s.status = Status.Active → s.currentGuess < TotalGuesses →
      s.word.length = WordLength → isWord wl aw s.word = true →
      (submit hm wl aw s s.word).1.status = Status.Won ∧
      (submit hm wl aw s s.word).1.currentGuess = s.currentGuess ∧
      (submit hm wl aw s s.word).2 = SubmitOutcome.accepted) ∧
    (∀ (hm : Bool) (wl aw : List (List Char)) (s : Session) (g : List Char),
      s.status ≠ Status.Active → submit hm wl aw s g = (s, SubmitOutcome.ignored)) := by
  refine ⟨?_, ?_, ?_⟩
  · intro hm wl aw s gs hact hcg hlenq hacc hne
    apply playGuesses_lost hm wl aw gs s hact
    · rw [hcg]
      decide
    · rw [hcg, hlenq]
      exact Nat.zero_add _
    · exact hacc
    · exact hne
  · intro hm wl aw s hact hlt hlen hw
    have hme : hardModeEnforcement s.word s.st.discovered s.word = true :=
      hardModeEnforcement_refl s.word s.st.discovered
    have hh : ¬(hm = true ∧ hardModeEnforcement s.word s.st.discovered s.word = false) := by
      intro hcontra
      rw [hme] at hcontra
      exact absurd hcontra.2 (by simp)
    rw [submit_accept_won hlen hact hw hh rfl]
    simp
  · intro hm wl aw s g hact
    by_cases hlen : g.length = WordLength
    · exact submit_inactive hlen hact
    · exact submit_badlen hlen

theorem C3_session_state_machine_witness :
    (playGuesses false [("CIGAR".toList), ("REBUT".toList)] [] (initSession ("CIGAR".toList))
        (List.replicate 6 ("REBUT".toList))).status = Status.Lost ∧
    (submit false [("CIGAR".toList), ("REBUT".toList)] [] (initSession ("CIGAR".toList))
        ("CIGAR".toList)).1.status = Status.Won :=
  ⟨C3_session_state_machine.1 false [("CIGAR".toList), ("REBUT".toList)] []
      (initSession ("CIGAR".toList)) (List.replicate 6 ("REBUT".toList))
      (by decide) (by decide) (by decide) (by decide) (by decide),
    (C3_session_state_machine.2.1 false [("CIGAR".toList), ("REBUT".toList)] []
      (initSession ("CIGAR".toList)) (by decide) (by decide) (by decide) (by decide)).1⟩

theorem goStringLess_irrefl : ∀ a : List Char, goStringLess a a = false := by
  intro a
  induction a with
  | nil => rfl
  | cons x xs ih => simp [goStringLess, ih]

theorem goStringLess_cotrans :
    ∀ (a c b : List Char), goStringLess a c = true →
      goStringLess a b = true ∨ goStringLess b c = true := by
  intro a
  induction a with
  | nil =>
      intro c b hac
      cases c with
      | nil => simp [goStringLess] at hac
      | cons z cs =>
          cases b with
          | nil => right; rfl
          | cons y bs => left; rfl
  | cons x xs ih =>
      intro c b hac
      cases c with
      | nil => simp [goStringLess] at hac
      | cons z cs =>
          cases b with
          | nil => right; rfl
          | cons y bs =>
              by_cases hxz : x = z
              · subst hxz
                have hac2 : goStringLess xs cs = true := by
                  simpa [goStringLess] using hac
                by_cases hxy : x = y
                · subst hxy
                  have := ih cs bs hac2
                  rcases this with h | h
                  · left; simpa [goStringLess] using h
                  · right; simpa [goStringLess] using h
                · rcases lt_trichotomy x y with h1 | h1 | h1
                  · left; simp [goStringLess, hxy, h1]
                  · exact absurd h1 hxy
                  · right; simp [goStringLess, Ne.symm hxy, h1]
              · have hxz2 : x < z := by
                  simpa [goStringLess, hxz] using hac
                by_cases hxy : x = y
                · subst hxy
                  right
                  simp [goStringLess, hxz, hxz2]
                · rcases lt_trichotomy x y with h1 | h1 | h1
                  · left; simp [goStringLess, hxy, h1]
                  · exact absurd h1 hxy
                  · have hyz : y < z := lt_trans h1 hxz2
                    have hyzne : ¬y = z := ne_of_lt hyz
                    right
                    simp [goStringLess, hyzne, hyz]

theorem goStringLess_conn :
    ∀ (a b : List Char), goStringLess a b = false → goStringLess b a = false → a = b := by
  intro a
  induction a with
  | nil =>
      intro b h1 _
      cases b with
      | nil => rfl
      | cons y bs => simp [goStringLess] at h1
  | cons x xs ih =>
      intro b h1 h2
      cases b with
      | nil => simp [goStringLess] at h2
      | cons y bs =>
          by_cases hxy : x = y
          · subst hxy
            have h1b : goStringLess xs bs = false := by simpa [goStringLess] using h1
            have h2b : goStringLess bs xs = false := by simpa [goStringLess] using h2
            rw [ih bs h1b h2b]
          · have hlt1 : ¬x < y := by simpa [goStringLess, hxy] using h1
            have hlt2 : ¬y < x := by simpa [goStringLess, Ne.symm hxy] using h2
            exact absurd (le_antisymm (not_lt.mp hlt2) (not_lt.mp hlt1)) hxy

theorem goSearchAux_spec (f : Nat → Bool) (n : Nat)
    (hmono : ∀ k1 k2, k1 ≤ k2 → k2 < n → f k1 = true → f k2 = true) :
    ∀ (fuel i j : Nat), j - i ≤ fuel → i ≤ j → j ≤ n →
      (∀ k, k < i → f k = false) → (∀ k, j ≤ k → k < n → f k = true) →
      (goSearchAux f fuel i j ≤ n ∧
        (∀ k, k < goSearchAux f fuel i j → f k = false) ∧
        (∀ k, goSearchAux f fuel i j ≤ k → k < n → f k = true)) := by
  intro fuel
  induction fuel with
  | zero =>
      intro i j hfuel hij hjn hlow hhigh
      have hij2 : i = j := by omega
      subst hij2
      exact ⟨hjn, hlow, hhigh⟩
  | succ fu ih =>
      intro i j hfuel hij hjn hlow hhigh
      by_cases hlt : i < j
      · have heq : goSearchAux f (fu + 1) i j =
            (if f ((i + j) / 2) = true then goSearchAux f fu i ((i + j) / 2)
             else goSearchAux f fu ((i + j) / 2 + 1) j) := by
          simp [goSearchAux, hlt]
        have hmlow : i ≤ (i + j) / 2 := by omega
        have hmhigh : (i + j) / 2 < j := by omega
        by_cases hfm : f ((i + j) / 2) = true
        · rw [heq, if_pos hfm]
          apply ih
          · omega
          · exact hmlow
          · omega
          · exact hlow
          · intro k hk hkn
            exact hmono ((i + j) / 2) k hk hkn hfm
        · rw [heq, if_neg hfm]
          apply ih
          · omega
          · omega
          · exact hjn
          · intro k hk
            by_cases hki : k < i
            · exact hlow k hki
            · cases hfk : f k with
              | false => rfl
              | true =>
                  exfalso
                  have hkm : k ≤ (i + j) / 2 := by omega
                  have := hmono k ((i + j) / 2) hkm (by omega) hfk
                  exact absurd this hfm
          · exact hhigh
      · have hij2 : i = j := by omega
        subst hij2
        have heq : goSearchAux f (fu + 1) i i = i := by
          simp [goSearchAux]
        rw [heq]
        exact ⟨by omega, hlow, hhigh⟩

theorem searchStrings_spec (l : List (List Char)) (x : List Char)
    (hs : List.Pairwise (fun a b => goStringLess b a = false) l) :
    (searchStrings l x < l.length ∧ l.getD (searchStrings l x) [] = x) ↔ x ∈ l := by
  have hmono : ∀ k1 k2, k1 ≤ k2 → k2 < l.length →
      (!goStringLess (l.getD k1 []) x) = true → (!goStringLess (l.getD k2 []) x) = true := by
    intro k1 k2 hk12 hk2 hf1
    rcases Nat.eq_or_lt_of_le hk12 with heq | hlt12
    · rw [← heq]; exact hf1
    · have hk1 : k1 < l.length := lt_trans hlt12 hk2
      have hsorted : goStringLess (l.getD k2 []) (l.getD k1 []) = false := by
        have hpg := List.pairwise_iff_getElem.mp hs k1 k2 hk1 hk2 hlt12
        rwa [← List.getD_eq_getElem l [] hk1, ← List.getD_eq_getElem l [] hk2] at hpg
      have hf1b : goStringLess (l.getD k1 []) x = false := by simpa using hf1
      simp only [Bool.not_eq_true']
      cases hglt : goStringLess (l.getD k2 []) x with
      | false => rfl
      | true =>
          exfalso
          rcases goStringLess_cotrans (l.getD k2 []) x (l.getD k1 []) hglt with h | h
          · rw [hsorted] at h; cases h
          · rw [hf1b] at h; cases h
  have hspec := goSearchAux_spec (fun k => !goStringLess (l.getD k []) x) l.length hmono
    (l.length - 0) 0 l.length (by omega) (by omega) (le_refl _)
    (fun k hk => absurd hk (Nat.not_lt_zero k))
    (fun k hk hkn => absurd hkn (by omega))
  have hrdef : searchStrings l x =
      goSearchAux (fun k => !goStringLess (l.getD k []) x) (l.length - 0) 0 l.length := rfl
  rw [← hrdef] at hspec
  obtain ⟨hle, hlowf, hhighf⟩ := hspec
  constructor
  · rintro ⟨hr, hx⟩
    rw [← hx, List.getD_eq_getElem l [] hr]
    exact List.getElem_mem hr
  · intro hx
    obtain ⟨t, ht, hxt⟩ := List.getElem_of_mem hx
    have hrt : searchStrings l x ≤ t := by
      by_contra hcon
      push_neg at hcon
      have hft := hlowf t hcon
      simp only [Bool.not_eq_false'] at hft
      rw [List.getD_eq_getElem l [] ht, hxt] at hft
      rw [goStringLess_irrefl x] at hft
      cases hft
    have hrn : searchStrings l x < l.length := lt_of_le_of_lt hrt ht
    have hfr := hhighf (searchStrings l x) (le_refl _) hrn
    have h1 : goStringLess (l.getD (searchStrings l x) []) x = false := by
      simpa using hfr
    have h2 : goStringLess x (l.getD (searchStrings l x) []) = false := by
      rcases Nat.eq_or_lt_of_le hrt with heq | hlt2
      · rw [heq, List.getD_eq_getElem l [] ht, hxt]
        exact goStringLess_irrefl x
      · have hpg := List.pairwise_iff_getElem.mp hs (searchStrings l x) t hrn ht hlt2
        rw [hxt, ← List.getD_eq_getElem l [] hrn] at hpg
        exact hpg
    exact ⟨hrn, goStringLess_conn _ _ h1 h2⟩

/-- C6: the word validator accepts a string exactly when it is a member of
the answer list or of the allowed-guess list, deciding membership by
binary search (`sort.Search` with `f(i) = a[i] >= x`) over each collection
held in lexicographically sorted order. -/
theorem C6_word_validator :
    ∀ (wl aw : List (List Char)) (w : List Char),
      List.Pairwise (fun a b => goStringLess b a = false) wl →
      List.Pairwise (fun a b => goStringLess b a = false) aw →
      (isWord wl aw w = true ↔ w ∈ wl ∨ w ∈ aw) := by
  intro wl aw w hwl haw
  have h1 := searchStrings_spec wl w hwl
  have h2 := searchStrings_spec aw w haw
  by_cases hfound : (decide (searchStrings wl w < wl.length) &&
      decide (wl.getD (searchStrings wl w) [] = w)) = true
  · have hmem : w ∈ wl := by
      rw [Bool.and_eq_true, decide_eq_true_eq, decide_eq_true_eq] at hfound
      exact h1.mp hfound
    have hiw : isWord wl aw w = true := by
      unfold isWord
      simp only [hfound, if_true]
    rw [hiw]
    simp [hmem]
  · have hnmem : w ∉ wl := by
      intro hmem
      obtain ⟨ha, hb⟩ := h1.mpr hmem
      apply hfound
      rw [Bool.and_eq_true, decide_eq_true_eq, decide_eq_true_eq]
      exact ⟨ha, hb⟩
    have hiw : isWord wl aw w =
        (decide (searchStrings aw w < aw.length) &&
          decide (aw.getD (searchStrings aw w) [] = w)) := by
      unfold isWord
      simp only [hfound, if_false, Bool.false_eq_true]
    rw [hiw]
    constructor
    · intro hb2
      rw [Bool.and_eq_true, decide_eq_true_eq, decide_eq_true_eq] at hb2
      exact Or.inr (h2.mp hb2)
    · intro hor
      rcases hor with h | h
      · exact absurd h hnmem
      · obtain ⟨ha, hb⟩ := h2.mpr h
        rw [Bool.and_eq_true, decide_eq_true_eq, decide_eq_true_eq]
        exact ⟨ha, hb⟩

theorem C6_word_validator_witness :
    isWord [("CIGAR".toList), ("REBUT".toList)] [("AAHED".toList)] ("AAHED".toList) = true ↔
      ("AAHED".toList) ∈ [("CIGAR".toList), ("REBUT".toList)] ∨
        ("AAHED".toList) ∈ [("AAHED".toList)] :=
  C6_word_validator [("CIGAR".toList), ("REBUT".toList)] [("AAHED".toList)] ("AAHED".toList)
    (by decide) (by decide)

theorem C10_duplicate_letter_credit_bound_witness :
    hintCount 'E' KeyHint.Located (("ERASE".toList).zip ("SPEED".toList))
          (evaluate ("ERASE".toList) ("SPEED".toList)) +
        hintCount 'E' KeyHint.Somewhere (("ERASE".toList).zip ("SPEED".toList))
          (evaluate ("ERASE".toList) ("SPEED".toList)) ≤
      ("SPEED".toList).count 'E' ∧
    KeyHint.Somewhere ≠ KeyHint.Unknown :=
  ⟨(C10_duplicate_letter_credit_bound ("ERASE".toList) ("SPEED".toList) 'E').1,
    (C10_duplicate_letter_credit_bound ("ERASE".toList) ("SPEED".toList) 'E').2
      KeyHint.Somewhere (by decide)⟩
